import Mathlib

/-!
Shallow embedding of the Merkle-tree core of the `bitcoin-client` repository
(`src/crypto/merkle.rs`) and of the block/header hashing in `src/block.rs`.

Digests (`H256`, 32 bytes in the source) are modelled as byte lists; SHA-256
is an opaque parameter `sha : List Nat → H256`, applied to the raw
concatenation of the two child digests exactly as the source does
(`digest(&SHA256, &[hash1, hash2].concat())`).  Rust panics (`unwrap` on a
`None` child, out-of-bounds indexing) are modelled by `Option`: `none` means
the source panics.  The recursion of `build` is modelled with explicit fuel,
since on `leaf_size = 0` the source recurses forever; `none` at exhausted
fuel models that divergence, and for `leaf_size ≥ 1` enough fuel always
exists and the result is fuel-independent on the reachable calls.
-/

/-- A 32-byte digest, modelled as a list of bytes. -/
abbrev H256 := List Nat

/-- A node in the Merkle tree: `MerkleNode { key, left_child, right_child }`. -/
inductive MerkleNode where
  | mk (key : H256) (left_child : Option MerkleNode) (right_child : Option MerkleNode)

def MerkleNode.key : MerkleNode → H256
  | .mk k _ _ => k

def MerkleNode.left_child : MerkleNode → Option MerkleNode
  | .mk _ l _ => l

def MerkleNode.right_child : MerkleNode → Option MerkleNode
  | .mk _ _ r => r

/-- Body of the `for i in 0..n` loop in `build`, one parent node per index:
`elem2` duplicates `elem1` for the last pair when `flag` is set (odd level);
indexing failures (impossible on the calls the source makes with a
consistent `leaf_size`) are `none`. -/
def pairLoop (sha : List Nat → H256) (leaves : List MerkleNode) (flag : Bool)
    (n : Nat) : List Nat → Option (List MerkleNode)
  | [] => some []
  | i :: is => do
    let elem1 ← leaves[2 * i]?
    let elem2 ← if flag ∧ i = n - 1 then leaves[2 * i]? else leaves[2 * i + 1]?
    let rest ← pairLoop sha leaves flag n is
    pure (MerkleNode.mk (sha (elem1.key ++ elem2.key)) (some elem1) (some elem2) :: rest)

/-- One pass of the `for i in 0..n` loop in `build`: pair up the current
level. -/
def buildStep (sha : List Nat → H256) (leaves : List MerkleNode) (flag : Bool)
    (n : Nat) : Option (List MerkleNode) :=
  pairLoop sha leaves flag n (List.range n)

/-- `fn build(leaves, leaf_size)` from `merkle.rs`, with explicit fuel for the
recursion.  For `leaf_size = 0` the source calls itself forever with `n = 0`;
here every fuel amount ends in `none`, modelling that non-termination. -/
def buildFuel (sha : List Nat → H256) : Nat → List MerkleNode → Nat → Option MerkleNode
  | 0, _, _ => none
  | fuel + 1, leaves, leaf_size =>
    if leaf_size = 1 then
      leaves[0]?
    else
      let flag : Bool := decide (leaf_size % 2 = 1)
      let n := (if leaf_size % 2 = 1 then leaf_size + 1 else leaf_size) / 2
      match buildStep sha leaves flag n with
      | none => none
      | some new_leaves => buildFuel sha fuel new_leaves n

/-- `build` with enough fuel for any `leaf_size ≥ 1` (the level count is at
most `leaf_size`, so `leaf_size + 1` calls always suffice). -/
def build (sha : List Nat → H256) (leaves : List MerkleNode) (leaf_size : Nat) :
    Option MerkleNode :=
  buildFuel sha (leaf_size + 1) leaves leaf_size

/-- `struct MerkleTree { root: MerkleNode }`. -/
structure MerkleTree where
  root : MerkleNode

/-- `MerkleTree::new`: hash each datum into a childless leaf node, then build.
`hash` is the `Hashable::hash` of the item type. -/
def MerkleTree.new {α : Type} (sha : List Nat → H256) (hash : α → H256)
    (data : List α) : Option MerkleTree :=
  (build sha (data.map (fun d => MerkleNode.mk (hash d) none none)) data.length).map
    MerkleTree.mk

/-- `MerkleTree::root`: the key of the root node (named `rootHash` because the
field is already called `root`). -/
def MerkleTree.rootHash (t : MerkleTree) : H256 :=
  t.root.key

/-- The do-while loop of `MerkleTree::proof`: push `n % 2`, halve, repeat
while the quotient is non-zero (least-significant bit first). -/
def bitsOf (n : Nat) : List Nat :=
  if h : n / 2 = 0 then [n % 2]
  else (n % 2) :: bitsOf (n / 2)
termination_by n
decreasing_by omega

/-- The descent loop of `MerkleTree::proof`: for each bit, unwrap both
children (`none` models the panic when a child is absent), record the
sibling key and descend. -/
def proofWalk : MerkleNode → List Nat → Option (List H256)
  | _, [] => some []
  | cur, b :: rest =>
    match cur.left_child, cur.right_child with
    | some lc, some rc =>
      if b = 0 then (proofWalk lc rest).map (fun tail => rc.key :: tail)
      else (proofWalk rc rest).map (fun tail => lc.key :: tail)
    | _, _ => none

/-- `MerkleTree::proof(index)`. -/
def MerkleTree.proof (t : MerkleTree) (index : Nat) : Option (List H256) :=
  proofWalk t.root (bitsOf index)

/-- The `while n > 1 && j <= m` loop of `verify`, returning the final
`(current, n, j)`; `none` models an out-of-bounds read of the proof array
(which in fact never happens, see the totality theorem). -/
def verifyLoop (sha : List Nat → H256) (pf : List H256) (m : Nat) :
    H256 → Nat → Nat → Nat → Option (H256 × Nat × Nat)
  | current, n, i, j =>
    if _hg : n > 1 ∧ j ≤ m then
      match pf[m - j]? with
      | none => none
      | some p =>
        verifyLoop sha pf m
          (if i % 2 = 0 then sha (current ++ p) else sha (p ++ current))
          (n / 2) (i / 2) (j + 1)
    else
      some (current, n, j)
termination_by _ n _ _ => n
decreasing_by omega

/-- `pub fn verify(root, datum, proof, index, leaf_size)` from `merkle.rs`:
run the loop, then succeed iff `n == 1 && j == m + 1 && current == root`. -/
def verify (sha : List Nat → H256) (root datum : H256) (pf : List H256)
    (index leaf_size : Nat) : Option Bool :=
  (verifyLoop sha pf pf.length datum leaf_size index 1).map
    (fun r => decide (r.2.1 = 1 ∧ r.2.2 = pf.length + 1 ∧ r.1 = root))

/-!  Helper definitions and lemmas (spec-side gadgets, not source code). -/

/-- Number of pairing levels needed to reduce `n` leaves to one node, with
odd levels rounded up by the duplication rule; `(n + 1) / 2` is the padded
half for both parities. -/
def heightOf (n : Nat) : Nat :=
  if n ≤ 1 then 0 else 1 + heightOf ((n + 1) / 2)
termination_by n
decreasing_by omega

/-- The node has both children present along every path down to depth `d`. -/
def hasDepth (node : MerkleNode) : Nat → Prop
  | 0 => True
  | d + 1 =>
    ∃ lc rc, node.left_child = some lc ∧ node.right_child = some rc ∧
      hasDepth lc d ∧ hasDepth rc d

/-- `struct Header { parent, nonce, difficulty, timestamp }` from `block.rs`
(the `u32` nonce and the `SystemTime` timestamp are modelled as `Nat`;
hashing never computes on them). -/
structure Header where
  parent : H256
  nonce : Nat
  difficulty : H256
  timestamp : Nat

/-- `struct Content { transactions, merkle_root }`; the transaction type is
opaque to the block code, so it is a type parameter here. -/
structure Content (Tx : Type) where
  transactions : List Tx
  merkle_root : H256

/-- `struct Block { header, content }`. -/
structure Block (Tx : Type) where
  header : Header
  content : Content Tx

/-- `impl Hashable for Header`: SHA-256 of the bincode serialization of the
header; the serializer is the opaque parameter `ser`. -/
def Header.hash (sha : List Nat → H256) (ser : Header → List Nat)
    (h : Header) : H256 :=
  sha (ser h)

/-- `impl Hashable for Block`: the hash of the header only. -/
def Block.hash {Tx : Type} (sha : List Nat → H256) (ser : Header → List Nat)
    (b : Block Tx) : H256 :=
  Header.hash sha ser b.header

theorem hasDepth_mono : ∀ d e (node : MerkleNode), hasDepth node d → e ≤ d →
    hasDepth node e := by
  intro d
  induction d with
  | zero => intro e node _ he; interval_cases e; trivial
  | succ d ih =>
    intro e node hd he
    cases e with
    | zero => trivial
    | succ e =>
      obtain ⟨lc, rc, hl, hr, hdl, hdr⟩ := hd
      exact ⟨lc, rc, hl, hr, ih e lc hdl (by omega), ih e rc hdr (by omega)⟩

theorem pairLoop_ok (sha : List Nat → H256) (leaves : List MerkleNode)
    (flag : Bool) (n d : Nat) (hleaves : ∀ x ∈ leaves, hasDepth x d) :
    ∀ l : List Nat,
      (∀ i ∈ l, 2 * i < leaves.length ∧
        (¬(flag ∧ i = n - 1) → 2 * i + 1 < leaves.length)) →
      ∃ r, pairLoop sha leaves flag n l = some r ∧ r.length = l.length ∧
        ∀ x ∈ r, hasDepth x (d + 1) := by
  intro l
  induction l with
  | nil => intro _; exact ⟨[], rfl, rfl, by simp⟩
  | cons i is ih =>
    intro h
    obtain ⟨h1, h2⟩ := h i (by simp)
    obtain ⟨r, hr, hlen, hPr⟩ := ih (fun i hi => h i (by simp [hi]))
    have he1 : leaves[2 * i]? = some (leaves.get ⟨2 * i, h1⟩) :=
      List.getElem?_eq_getElem h1
    have hd1 : hasDepth (leaves.get ⟨2 * i, h1⟩) d :=
      hleaves _ (leaves.get_mem _ _)
    by_cases hc : flag ∧ i = n - 1
    · refine ⟨MerkleNode.mk
          (sha ((leaves.get ⟨2 * i, h1⟩).key ++ (leaves.get ⟨2 * i, h1⟩).key))
          (some (leaves.get ⟨2 * i, h1⟩)) (some (leaves.get ⟨2 * i, h1⟩)) :: r,
        ?_, by simp [hlen], ?_⟩
      · simp [pairLoop, he1, if_pos hc, hr]
      · intro x hx
        rcases List.mem_cons.mp hx with h1 | h2
        · exact h1 ▸ ⟨_, _, rfl, rfl, hd1, hd1⟩
        · exact hPr x h2
    · have h2' := h2 hc
      have he2 : leaves[2 * i + 1]? = some (leaves.get ⟨2 * i + 1, h2'⟩) :=
        List.getElem?_eq_getElem h2'
      have hd2 : hasDepth (leaves.get ⟨2 * i + 1, h2'⟩) d :=
        hleaves _ (leaves.get_mem _ _)
      refine ⟨MerkleNode.mk
          (sha ((leaves.get ⟨2 * i, h1⟩).key ++ (leaves.get ⟨2 * i + 1, h2'⟩).key))
          (some (leaves.get ⟨2 * i, h1⟩)) (some (leaves.get ⟨2 * i + 1, h2'⟩)) :: r,
        ?_, by simp [hlen], ?_⟩
      · simp [pairLoop, he1, if_neg hc, he2, hr]
      · intro x hx
        rcases List.mem_cons.mp hx with h1 | h2
        · exact h1 ▸ ⟨_, _, rfl, rfl, hd1, hd2⟩
        · exact hPr x h2

theorem buildFuel_ok (sha : List Nat → H256) :
    ∀ leaf_size : Nat, 1 ≤ leaf_size →
      ∀ fuel d (leaves : List MerkleNode), leaves.length = leaf_size →
        leaf_size ≤ fuel → (∀ x ∈ leaves, hasDepth x d) →
        ∃ root, buildFuel sha fuel leaves leaf_size = some root ∧
          hasDepth root (d + heightOf leaf_size) := by
  intro ls
  induction ls using Nat.strong_induction_on with
  | _ ls ih =>
    intro h1 fuel d leaves hlen hfuel hd
    cases fuel with
    | zero => omega
    | succ fuel =>
      by_cases hls1 : ls = 1
      · subst hls1
        have h0 : 0 < leaves.length := by omega
        refine ⟨leaves.get ⟨0, h0⟩, ?_, ?_⟩
        · simp [buildFuel, List.getElem?_eq_getElem h0]
        · have hh : heightOf 1 = 0 := by unfold heightOf; simp
          rw [hh]
          exact hd _ (leaves.get_mem _ _)
      · have hls2 : 2 ≤ ls := by omega
        have hn2 : (if ls % 2 = 1 then ls + 1 else ls) / 2 = (ls + 1) / 2 := by
          split <;> omega
        have harg : ∀ i ∈ List.range ((if ls % 2 = 1 then ls + 1 else ls) / 2),
            2 * i < leaves.length ∧
            (¬((decide (ls % 2 = 1) : Bool) ∧ i = (if ls % 2 = 1 then ls + 1 else ls) / 2 - 1) →
              2 * i + 1 < leaves.length) := by
          intro i hi
          have hi2 := List.mem_range.mp hi
          constructor
          · omega
          · intro hnc
            by_cases hpar : ls % 2 = 1
            · have hne : i ≠ (if ls % 2 = 1 then ls + 1 else ls) / 2 - 1 :=
                fun hh => hnc ⟨by simp [hpar], hh⟩
              omega
            · omega
        obtain ⟨r, hr, hrlen, hrd⟩ :=
          pairLoop_ok sha leaves (decide (ls % 2 = 1))
            ((if ls % 2 = 1 then ls + 1 else ls) / 2) d hd
            (List.range ((if ls % 2 = 1 then ls + 1 else ls) / 2)) harg
        have hrlen2 : r.length = (if ls % 2 = 1 then ls + 1 else ls) / 2 := by
          simpa using hrlen
        obtain ⟨root, hroot, hrootd⟩ :=
          ih ((if ls % 2 = 1 then ls + 1 else ls) / 2) (by omega) (by omega)
            fuel (d + 1) r hrlen2 (by omega) hrd
        refine ⟨root, ?_, ?_⟩
        · simp only [buildFuel, if_neg hls1, buildStep]
          rw [hr]
          exact hroot
        · have hh : heightOf ls = 1 + heightOf ((ls + 1) / 2) := by
            rw [heightOf, if_neg (by omega)]
          rw [hh, ← hn2]
          have : d + (1 + heightOf ((if ls % 2 = 1 then ls + 1 else ls) / 2))
              = d + 1 + heightOf ((if ls % 2 = 1 then ls + 1 else ls) / 2) := by omega
          rw [hn2] at this ⊢
          rw [this, ← hn2]
          exact hrootd

theorem proofWalk_ok : ∀ (bits : List Nat) (node : MerkleNode),
    hasDepth node bits.length →
    ∃ pf, proofWalk node bits = some pf ∧ pf.length = bits.length := by
  intro bits
  induction bits with
  | nil => intro node _; exact ⟨[], rfl, rfl⟩
  | cons b bs ih =>
    intro node hd
    obtain ⟨lc, rc, hl, hr, hdl, hdr⟩ := hd
    by_cases hb : b = 0
    · obtain ⟨pf, hpf, hplen⟩ := ih lc hdl
      exact ⟨rc.key :: pf, by simp [proofWalk, hl, hr, if_pos hb, hpf],
        by simp [hplen]⟩
    · obtain ⟨pf, hpf, hplen⟩ := ih rc hdr
      exact ⟨lc.key :: pf, by simp [proofWalk, hl, hr, if_neg hb, hpf],
        by simp [hplen]⟩

theorem bitsOf_length : ∀ n : Nat, (bitsOf n).length = Nat.log2 n + 1 := by
  intro n
  induction n using Nat.strong_induction_on with
  | _ n ih =>
    unfold bitsOf
    split
    · next h =>
      have hn2 : n < 2 := by omega
      have : Nat.log 2 n = 0 := Nat.log_eq_zero_iff.mpr (Or.inl hn2)
      simp [Nat.log2_eq_log_two, this]
    · next h =>
      have h2 : 2 ≤ n := by omega
      have hdiv := Nat.log_div_base 2 n
      have hpos := Nat.log_pos (b := 2) (by norm_num) h2
      have hih := ih (n / 2) (by omega)
      simp only [List.length_cons, hih, Nat.log2_eq_log_two] at *
      omega

theorem bits_le_height : ∀ leaf_size : Nat, 2 ≤ leaf_size →
    ∀ index : Nat, index < leaf_size →
      (bitsOf index).length ≤ heightOf leaf_size := by
  intro ls
  induction ls using Nat.strong_induction_on with
  | _ ls ih =>
    intro h2 index hidx
    rw [heightOf, if_neg (by omega)]
    unfold bitsOf
    split
    · simp
    · next h =>
      simp only [List.length_cons]
      have hrec := ih ((ls + 1) / 2) (by omega) (by omega) (index / 2) (by omega)
      omega

theorem verifyLoop_isSome (sha : List Nat → H256) (pf : List H256) :
    ∀ n current i j, 1 ≤ j →
      (verifyLoop sha pf pf.length current n i j).isSome = true := by
  intro n
  induction n using Nat.strong_induction_on with
  | _ n ihn =>
    intro current i j hj
    unfold verifyLoop
    split
    · next hguard =>
      have hlt : pf.length - j < pf.length := by omega
      rw [List.getElem?_eq_getElem hlt]
      exact ihn (n / 2) (by omega) _ _ _ (by omega)
    · simp

/-!  Claim theorems. -/

/-- C6: `verify` is total.  For every root, leaf digest, proof sequence,
index and leaf count — including malformed, mismatched-length or
out-of-range combinations — `verify` returns a boolean (`some b` in the
model, whose `none` would mean a panic or an out-of-bounds access of the
proof array); it never reads the proof array out of bounds. -/
theorem verify_total (sha : List Nat → H256) (root datum : H256)
    (pf : List H256) (index leaf_size : Nat) :
    ∃ b : Bool, verify sha root datum pf index leaf_size = some b := by
  have h := verifyLoop_isSome sha pf leaf_size datum index 1 (le_refl 1)
  obtain ⟨r, hr⟩ := Option.isSome_iff_exists.mp h
  exact ⟨_, by rw [verify, hr]; rfl⟩

/-- C7: for `leaf_size = 1` the loop body of `verify` never executes, and
verification succeeds iff the proof is empty and the leaf digest equals the
root. -/
theorem verify_single_leaf_iff (sha : List Nat → H256) (root datum : H256)
    (pf : List H256) (index : Nat) :
    verify sha root datum pf index 1 = some true ↔ pf = [] ∧ datum = root := by
  unfold verify verifyLoop
  simp [List.length_eq_zero]

/-- C8: odd-duplication canonicalization.  For all leaf digests `a`, `b`,
`c`, the tree built from `[a, b, c]` has the same root as the tree built
from `[a, b, c, c]`: the unpaired last element of an odd level is paired
with a copy of itself. -/
theorem odd_duplication_root_eq (sha : List Nat → H256) (a b c : H256) :
    (MerkleTree.new sha id [a, b, c]).map MerkleTree.rootHash =
    (MerkleTree.new sha id [a, b, c, c]).map MerkleTree.rootHash := by
  simp [MerkleTree.new, build, buildFuel, buildStep, pairLoop, MerkleTree.rootHash,
        MerkleNode.key, List.range_succ]

/-- C9: two-leaf concrete scenario.  For any two hashable items `L0`, `L1`,
the tree built from `[L0, L1]` has root `sha(hash(L0) ++ hash(L1))` (raw
concatenation of the two leaf digests), `proof(0)` is the one-element
sequence `[hash(L1)]`, and verification of that proof succeeds. -/
theorem two_leaf_scenario {α : Type} (sha : List Nat → H256) (hash : α → H256)
    (L0 L1 : α) :
    (MerkleTree.new sha hash [L0, L1]).map MerkleTree.rootHash
        = some (sha (hash L0 ++ hash L1)) ∧
    (MerkleTree.new sha hash [L0, L1]).bind (fun t => t.proof 0)
        = some [hash L1] ∧
    verify sha (sha (hash L0 ++ hash L1)) (hash L0) [hash L1] 0 2 = some true := by
  refine ⟨?_, ?_, ?_⟩
  · simp [MerkleTree.new, build, buildFuel, buildStep, pairLoop, MerkleTree.rootHash,
          MerkleNode.key, List.range_succ]
  · simp [MerkleTree.new, build, buildFuel, buildStep, pairLoop, MerkleTree.proof,
          proofWalk, bitsOf, MerkleNode.key, MerkleNode.left_child,
          MerkleNode.right_child, List.range_succ]
  · simp [verify, verifyLoop]

/-- C2: the claim says `proof(0)` on a single-leaf tree returns an empty
sequence.  In the code the bit-decomposition do-while loop always produces
at least one bit, so the walk calls `unwrap` on the root's absent children
and panics (`none` in the model) for every single-item tree. -/
theorem single_leaf_proof_unwraps_none {α : Type} (sha : List Nat → H256)
    (hash : α → H256) (x : α) :
    (MerkleTree.new sha hash [x]).bind (fun t => t.proof 0) = none := by
  simp [MerkleTree.new, build, buildFuel, MerkleTree.proof, proofWalk, bitsOf,
        MerkleNode.left_child, MerkleNode.right_child]

/-- C3: the claim says `proof(index)` with `index ≥ leaf_size` fails with an
`IndexOutOfRange` error.  The code has no such check and no error channel:
on the 3-leaf tree with digests `[1]`, `[2]`, `[3]` and the out-of-range
index 3 it returns the garbage 2-element path `[sha([1] ++ [2]), [3]]`
(evaluated here with `sha` the identity on byte lists). -/
theorem out_of_range_proof_returns_path :
    (MerkleTree.new (fun l => l) (fun d : H256 => d) [[1], [2], [3]]).bind
      (fun t => t.proof 3) = some [[1, 2], [3]] := by
  simp [MerkleTree.new, build, buildFuel, buildStep, pairLoop, MerkleTree.proof,
        proofWalk, bitsOf, MerkleNode.key, MerkleNode.left_child,
        MerkleNode.right_child, List.range_succ]

/-- C4: the claim says building from zero leaves is rejected with an
`EmptyInput` error.  In the code `build(leaves, 0)` calls itself forever
with `n = 0`: in the fuel model no fuel amount ever produces a result, so
construction neither terminates nor reports anything to the caller. -/
theorem build_empty_input_diverges (sha : List Nat → H256) :
    ∀ fuel, buildFuel sha fuel [] 0 = none := by
  intro fuel
  induction fuel with
  | zero => rfl
  | succ fuel ih => simpa [buildFuel, buildStep, pairLoop] using ih

/-- C1: the claim (and the repository's own test `assignment2_merkle_verify`)
says `verify(root, items[i].digest(), proof(i), i, n)` is true for every
`i < n`.  The code decomposes `i` least-significant-bit-first but applies
the bits from the root downwards, so `proof(0)` always has length 1; on the
8-leaf tree of that test the verifier stops after one hash with `n = 4 ≠ 1`
and returns false at index 0 (`sha` here is the identity on byte lists; the
failure is structural and independent of the hash function). -/
theorem inclusion_soundness_fails_at_index_zero :
    (MerkleTree.new (fun l => l) (fun d : H256 => d)
        [[0], [1], [2], [3], [4], [5], [6], [7]]).bind
      (fun t => (t.proof 0).bind
        (fun pf => verify (fun l => l) t.rootHash [0] pf 0 8)) = some false := by
  simp [MerkleTree.new, build, buildFuel, buildStep, pairLoop, MerkleTree.proof,
        proofWalk, bitsOf, MerkleTree.rootHash, MerkleNode.key,
        MerkleNode.left_child, MerkleNode.right_child, List.range_succ,
        verify, verifyLoop]

/-- C5: for every tree with at least two leaves and every in-range index,
`proof(index)` succeeds and its length equals the number of bits produced
by the least-significant-bit-first decomposition of `index` (1 for index 0,
`floor(log2 index) + 1` otherwise), independent of the leaf count and of
the tree's height. -/
theorem proof_length_eq_index_bits {α : Type} (sha : List Nat → H256)
    (hash : α → H256) (data : List α) (index : Nat)
    (h2 : 2 ≤ data.length) (hidx : index < data.length) :
    ∃ t pf, MerkleTree.new sha hash data = some t ∧ t.proof index = some pf ∧
      pf.length = (bitsOf index).length ∧
      (bitsOf index).length = if index = 0 then 1 else Nat.log2 index + 1 := by
  have hleaves : ∀ x ∈ data.map (fun d => MerkleNode.mk (hash d) none none),
      hasDepth x 0 := by intro x _; trivial
  obtain ⟨root, hb, hd⟩ := buildFuel_ok sha data.length (by omega)
    (data.length + 1) 0 (data.map (fun d => MerkleNode.mk (hash d) none none))
    (by simp) (by omega) hleaves
  have hle : (bitsOf index).length ≤ heightOf data.length :=
    bits_le_height data.length h2 index hidx
  have hd2 : hasDepth root (bitsOf index).length :=
    hasDepth_mono _ _ _ hd (by omega)
  obtain ⟨pf, hpf, hplen⟩ := proofWalk_ok (bitsOf index) root hd2
  have hlog0 : Nat.log2 0 = 0 := by
    rw [Nat.log2_eq_log_two]
    exact Nat.log_eq_zero_iff.mpr (Or.inl (by norm_num))
  refine ⟨MerkleTree.mk root, pf, ?_, ?_, hplen, ?_⟩
  · simp [MerkleTree.new, build, hb]
  · simpa [MerkleTree.proof] using hpf
  · have hbl := bitsOf_length index
    by_cases h0 : index = 0
    · subst h0; simp [hbl, hlog0]
    · simp [h0, hbl]

/-- Witness for C5 at the concrete 3-leaf tree and index 2. -/
theorem proof_length_eq_index_bits_witness :
    ∃ t pf, MerkleTree.new (fun l => l) (fun d : H256 => d) [[1], [2], [3]]
        = some t ∧ t.proof 2 = some pf ∧
      pf.length = (bitsOf 2).length ∧
      (bitsOf 2).length = if 2 = 0 then 1 else Nat.log2 2 + 1 :=
  proof_length_eq_index_bits (fun l => l) (fun d => d) [[1], [2], [3]] 2
    (by simp) (by simp)

/-- C10: a block's hash depends only on its header fields.  Any two blocks
with equal headers hash to the same digest, whatever their contents
(transactions and merkle root), since `Hashable for Block` hashes only the
serialized header. -/
theorem block_hash_ignores_content {Tx : Type} (sha : List Nat → H256)
    (ser : Header → List Nat) (b1 b2 : Block Tx)
    (h : b1.header = b2.header) :
    Block.hash sha ser b1 = Block.hash sha ser b2 := by
  simp [Block.hash, Header.hash, h]

/-- Witness for C10: equal headers, different transactions and merkle root. -/
theorem block_hash_ignores_content_witness :
    Block.hash (fun l => l) (fun h => h.parent ++ h.difficulty)
        (Block.mk (Header.mk [0] 5 [1] 10) (Content.mk ([1] : List Nat) [7]))
      = Block.hash (fun l => l) (fun h => h.parent ++ h.difficulty)
        (Block.mk (Header.mk [0] 5 [1] 10) (Content.mk ([2, 3] : List Nat) [9])) :=
  block_hash_ignores_content _ _ _ _ rfl
